import Mathlib

/-!
Simon Dice (ESP32) game engine: embedding of `src/main.cpp`.

The engine state of the sketch (the globals `gameSequence`, `gameIndex`, `score`,
`delayTime`) is threaded explicitly through every function.  Everything the engine
observes from outside is held in the state as a feed of future observations:

* `isPaused k`    : the value the `k`-th upcoming read of the volatile flag returns
                    (the flag is toggled by the interrupt handler `handlePauseButton`
                    between any two reads, so consecutive reads are unrelated);
* `digitalRead k` : whether the `k`-th upcoming `digitalRead` of a button pin returns `LOW`;
* `random k`      : the raw value behind the `k`-th upcoming call of `random(0, 4)`;
* `serialBT`      : the Bluetooth messages still to arrive, one per blocking receive.

What the engine does to the outside is appended to `trace`.  The LCD and the `delay`
calls have no influence on the engine and are left out.  Unbounded polling loops take a
`fuel` argument counting loop iterations; running out of fuel or of Bluetooth messages
yields `Fault.blocked`, indexing an array outside its declared size yields
`Fault.outOfBounds`.  Machine integers are `Nat` with the `uint8_t` wrap written out.
-/

namespace SimonDice

/-- Line 16: `#define MAX_GAME_LENGTH 100`. -/
def MAX_GAME_LENGTH : Nat := 100

/-- Line 8: `const uint8_t buttonPins[] = {32, 33, 25, 26}`. -/
def buttonPins : List Nat := [32, 33, 25, 26]

/-- Line 9: `const uint8_t ledPins[] = {18, 5, 17, 2}`. -/
def ledPins : List Nat := [18, 5, 17, 2]

/-- Ways in which a run of the model stops without a result. -/
inductive Fault
  | outOfBounds
  | blocked
  deriving DecidableEq, Repr

/-- Observable actions of the engine. -/
inductive Event
  | led (ledIndex onMs : Nat)
  | send (score : Nat)
  | buzz (onMs : Nat)
  deriving DecidableEq, Repr

/-- Engine globals (lines 22-26), pending observations, and the output trace. -/
structure State where
  gameSequence : List Nat
  gameIndex : Nat
  score : Nat
  delayTime : Nat
  isPaused : Nat → Bool
  digitalRead : Nat → Bool
  random : Nat → Nat
  serialBT : List (List Char)
  trace : List Event

/-- The feed that delivers the items of `l` first and then continues as `f`. -/
def feed {α : Type} : List α → (Nat → α) → Nat → α
  | [], f => f
  | a :: l, f => fun k => match k with
    | 0 => a
    | k + 1 => feed l f k

/-- One read of the volatile flag: the value seen, and the state with that observation
consumed. -/
def readIsPaused (s : State) : Bool × State :=
  (s.isPaused 0, { s with isPaused := fun k => s.isPaused (k + 1) })

/-- One `digitalRead(pin) == LOW` test on a button pin. -/
def readLow (s : State) : Bool × State :=
  (s.digitalRead 0, { s with digitalRead := fun k => s.digitalRead (k + 1) })

/-- One call `random(0, 4)`: Arduino reduces the raw generator value modulo `max - min`. -/
def random04 (s : State) : Nat × State :=
  (s.random 0 % 4, { s with random := fun k => s.random (k + 1) })

/-- Append one event to the trace. -/
def emit (e : Event) (s : State) : State :=
  { s with trace := s.trace ++ [e] }

/-- The C string held in the buffer of an Arduino `String` made of the bytes `text`:
`difficulty += ch` appends every received byte, a NUL byte included, and the C string
functions read the buffer up to its first NUL byte. -/
def cString (text : List Char) : List Char :=
  text.takeWhile (fun c => c != Char.ofNat 0)

/-- C library `strstr(haystack, needle)`: offset of the first occurrence of `needle` in
`haystack`, if any; `go` scans the suffixes of `haystack` from offset `i`. -/
def strstr (needle : List Char) (haystack : List Char) : Option Nat :=
  go haystack 0
where
  go : List Char → Nat → Option Nat
    | [], i => if needle.isEmpty then some i else none
    | c :: cs, i => if needle.isPrefixOf (c :: cs) then some i else go cs (i + 1)

/-- Arduino `String::indexOf(pattern)` (library code): `-1` when the string has length
0, otherwise `strstr` on the buffer, giving the offset found or `-1`. -/
def indexOf (pat : List Char) (text : List Char) : Int :=
  if text.length = 0 then -1
  else
    match strstr pat (cString text) with
    | none => -1
    | some i => (i : Int)

/-- Lines 39-42 of `setup`: the `for (byte i = 0; i < 4; i++)` loop that indexes
`ledPins[i]` and `buttonPins[i]`. -/
def pinModeLoop : Nat → Nat → Except Fault Unit
  | 0, _ => .ok ()
  | n + 1, i =>
    match ledPins[i]?, buttonPins[i]? with
    | some _, some _ => pinModeLoop n (i + 1)
    | _, _ => .error .outOfBounds

/-- Lines 36-117, `setup`: waits for one Bluetooth message and selects the interval. -/
def setup (s : State) : Except Fault State :=
  match pinModeLoop 4 0 with
  | .error e => .error e
  | .ok _ =>
    match s.serialBT with
    | [] => .error .blocked
    | difficulty :: pending =>
      let s := { s with serialBT := pending }
      if indexOf ['E', 'a', 's', 'y'] difficulty ≠ -1 then
        .ok { s with delayTime := 600 }
      else if indexOf ['M', 'e', 'd', 'i', 'u', 'm'] difficulty ≠ -1 then
        .ok { s with delayTime := 300 }
      else if indexOf ['H', 'a', 'r', 'd'] difficulty ≠ -1 then
        .ok { s with delayTime := 100 }
      else
        .ok s

/-- Lines 123-129, `lightLedAndVibrate`: indexes `ledPins[ledIndex]` and holds the LED
and the buzzer on for `delayTime`. -/
def lightLedAndVibrate (ledIndex : Nat) (s : State) : Except Fault State :=
  match ledPins[ledIndex]? with
  | none => .error .outOfBounds
  | some _ => .ok (emit (.led ledIndex s.delayTime) s)

/-- Lines 135-140: the `for` loop of `playSequence`, with `todo` iterations left and
loop variable `i`. -/
def playSequenceLoop : Nat → Nat → State → Except Fault State
  | 0, _, s => .ok s
  | todo + 1, i, s =>
    let r := readIsPaused s
    if r.1 then .ok r.2
    else
      match (if i < MAX_GAME_LENGTH then r.2.gameSequence[i]? else none) with
      | none => .error .outOfBounds
      | some currentLed =>
        match lightLedAndVibrate currentLed r.2 with
        | .error e => .error e
        | .ok s1 => playSequenceLoop todo (i + 1) s1

/-- Lines 134-141, `playSequence`. -/
def playSequence (s : State) : Except Fault State :=
  playSequenceLoop s.gameIndex 0 s

/-- Lines 150-155: the `for (byte i = 0; i < 4; i++)` scan of `readButtons`, with
`todo` iterations left; `some i` is the early `return i`. -/
def scanButtons : Nat → Nat → State → Except Fault (Option Nat × State)
  | 0, _, s => .ok (none, s)
  | todo + 1, i, s =>
    match buttonPins[i]? with
    | none => .error .outOfBounds
    | some _ =>
      let r := readLow s
      if r.1 then .ok (some i, r.2) else scanButtons todo (i + 1) r.2

/-- Lines 147-158, `readButtons`: `fuel` bounds the iterations of `while (true)`. -/
def readButtons : Nat → State → Except Fault (Nat × State)
  | 0, _ => .error .blocked
  | fuel + 1, s =>
    let r := readIsPaused s
    if r.1 then .ok (255, r.2)
    else
      match scanButtons 4 0 r.2 with
      | .error e => .error e
      | .ok (some i, s1) => .ok (i, s1)
      | .ok (none, s1) => readButtons fuel s1

/-- Lines 174-179: the four-pulse cue of `gameOver`. -/
def gameOverCue : Nat → State → State
  | 0, s => s
  | n + 1, s => gameOverCue n (emit (.buzz 100) s)

/-- Lines 163-231, `gameOver`. -/
def gameOver (s : State) : Except Fault State :=
  let s := emit (.send s.score) s
  let s := { s with gameIndex := 0 }
  let s := gameOverCue 4 s
  let s := { s with score := 0 }
  match s.serialBT with
  | [] => .error .blocked
  | difficulty :: pending =>
    let s := { s with serialBT := pending }
    if indexOf ['E', 'a', 's', 'y'] difficulty ≠ -1 then
      .ok { s with delayTime := 600 }
    else if indexOf ['M', 'e', 'd', 'i', 'u', 'm'] difficulty ≠ -1 then
      .ok { s with delayTime := 300 }
    else if indexOf ['H', 'a', 'r', 'd'] difficulty ≠ -1 then
      .ok { s with delayTime := 100 }
    else
      .ok s

/-- Lines 237-245: the `for` loop of `checkUserSequence`, with `todo` iterations left
and loop variable `i`. -/
def checkUserSequenceLoop (fuel : Nat) : Nat → Nat → State → Except Fault (Bool × State)
  | 0, _, s => .ok (true, s)
  | todo + 1, i, s =>
    match (if i < MAX_GAME_LENGTH then s.gameSequence[i]? else none) with
    | none => .error .outOfBounds
    | some expectedButton =>
      match readButtons fuel s with
      | .error e => .error e
      | .ok (actualButton, s1) =>
        if actualButton = 255 then .ok (false, s1)
        else
          match lightLedAndVibrate actualButton s1 with
          | .error e => .error e
          | .ok s2 =>
            if expectedButton ≠ actualButton then .ok (false, s2)
            else checkUserSequenceLoop fuel todo (i + 1) s2

/-- Lines 236-247, `checkUserSequence`. -/
def checkUserSequence (fuel : Nat) (s : State) : Except Fault (Bool × State) :=
  checkUserSequenceLoop fuel s.gameIndex 0 s

/-- Lines 252-260, `playLevelUpSequence`, with `todo` pulses left. -/
def playLevelUpSequence : Nat → State → State
  | 0, s => s
  | todo + 1, s =>
    let r := readIsPaused s
    if r.1 then r.2 else playLevelUpSequence todo (emit (.buzz 150) r.2)

/-- Lines 273-275 of `loop`: `while (isPaused) delay(100)`. -/
def pauseWait : Nat → State → Except Fault State
  | 0, _ => .error .blocked
  | fuel + 1, s =>
    let r := readIsPaused s
    if r.1 then pauseWait fuel r.2 else .ok r.2

/-- Lines 266-286 of `loop`: the pause checkpoint at the top of every iteration. -/
def pauseCheckpoint (fuel : Nat) (s : State) : Except Fault State :=
  let r := readIsPaused s
  if r.1 then pauseWait fuel r.2 else .ok r.2

/-- Lines 289-293 of `loop`: store a random symbol at `gameIndex`, increment the
`uint8_t` index, clamp it. -/
def extendSequence (s : State) : Except Fault State :=
  let r := random04 s
  if r.2.gameIndex < MAX_GAME_LENGTH ∧ r.2.gameIndex < r.2.gameSequence.length then
    let s1 := { r.2 with gameSequence := r.2.gameSequence.set r.2.gameIndex r.1 }
    let s2 := { s1 with gameIndex := (s1.gameIndex + 1) % 256 }
    if s2.gameIndex ≥ MAX_GAME_LENGTH then
      .ok { s2 with gameIndex := MAX_GAME_LENGTH - 1 }
    else
      .ok s2
  else
    .error .outOfBounds

/-- Lines 266-298 of `loop`, up to and including the call of `checkUserSequence`:
`none` is the `return` of line 297, `some b` the value `checkUserSequence()` gave. -/
def loopUntilVerified (fuel : Nat) (s : State) : Except Fault (Option Bool × State) :=
  match pauseCheckpoint fuel s with
  | .error e => .error e
  | .ok s1 =>
    match extendSequence s1 with
    | .error e => .error e
    | .ok s2 =>
      match playSequence s2 with
      | .error e => .error e
      | .ok s3 =>
        let r := readIsPaused s3
        if r.1 then .ok (none, r.2)
        else
          match checkUserSequence fuel r.2 with
          | .error e => .error e
          | .ok (won, s4) => .ok (some won, s4)

/-- Lines 298-313 of `loop`, from the branch on the value of `checkUserSequence()`. -/
def loopAfterVerified (won : Bool) (s : State) : Except Fault State :=
  match (if !won then gameOver s else .ok { s with score := (s.score + 1) % 256 }) with
  | .error e => .error e
  | .ok s1 =>
    let r := readIsPaused s1
    if r.1 then .ok r.2
    else if r.2.gameIndex > 0 then .ok (playLevelUpSequence 3 r.2)
    else .ok r.2

/-- Lines 265-314, `loop`: one iteration of the main game loop. -/
def loop (fuel : Nat) (s : State) : Except Fault State :=
  match loopUntilVerified fuel s with
  | .error e => .error e
  | .ok (none, s1) => .ok s1
  | .ok (some won, s1) => loopAfterVerified won s1

/-- The globals as initialised at boot (lines 22-26) with arbitrary pending
observations. -/
def boot (isPaused digitalRead : Nat → Bool) (random : Nat → Nat)
    (serialBT : List (List Char)) : State :=
  { gameSequence := List.replicate MAX_GAME_LENGTH 0
    gameIndex := 0
    score := 0
    delayTime := 300
    isPaused := isPaused
    digitalRead := digitalRead
    random := random
    serialBT := serialBT
    trace := [] }

/-! ## Specification-side vocabulary and sample states -/

/-- The engine globals, the pending Bluetooth messages and the pending random values
agree in both states. -/
def SameEngine (s t : State) : Prop :=
  t.gameSequence = s.gameSequence ∧ t.gameIndex = s.gameIndex ∧ t.score = s.score ∧
    t.delayTime = s.delayTime ∧ t.serialBT = s.serialBT ∧ t.random = s.random

/-- The trace of `t` is the trace of `s` followed by LED pulses on valid indices only. -/
def LedsOnly (s t : State) : Prop :=
  ∃ leds : List Event, (∀ e ∈ leds, ∃ i ms, i < 4 ∧ e = Event.led i ms) ∧
    t.trace = s.trace ++ leds

/-- One iteration of `loop` from `s` to `t` in which `checkUserSequence()` gave `true`. -/
def WonRound (s t : State) : Prop :=
  ∃ fuel s4, loopUntilVerified fuel s = .ok (some true, s4) ∧ loop fuel s = .ok t

/-- Exactly `k` consecutive won iterations of `loop` lead from the first state to the
second. -/
inductive WonRounds : Nat → State → State → Prop
  | zero (s : State) : WonRounds 0 s s
  | succ {k : Nat} {s t u : State} : WonRounds k s t → WonRound t u → WonRounds (k + 1) s u

/-- The `digitalRead` results that make up one button press: `gap` polls of
`readButtons` in which all four buttons read released, then a poll in which the buttons
before `button` read released and `button` reads pressed. -/
def pressReads (gap button : Nat) : List Bool :=
  List.replicate (4 * gap + button) false ++ [true]

/-- The `digitalRead` results of a series of presses, each given as `(gap, button)`. -/
def encodePresses : List (Nat × Nat) → List Bool
  | [] => []
  | p :: ps => pressReads p.1 p.2 ++ encodePresses ps

/-- Well-formed engine state: the array has its declared size, the index points into
it, and every stored symbol is one of the four LED/button indices. -/
def Inv (s : State) : Prop :=
  s.gameSequence.length = MAX_GAME_LENGTH ∧ s.gameIndex < MAX_GAME_LENGTH ∧
    ∀ x ∈ s.gameSequence, x < 4

/-- States the sketch can be in between calls of `setup` and `loop`: the boot state with
any pending observations, and whatever `setup` or a completed iteration of `loop` (with
any amount of fuel) makes of such a state. -/
inductive Reachable : State → Prop
  | boot (isPaused digitalRead : Nat → Bool) (random : Nat → Nat)
      (serialBT : List (List Char)) : Reachable (boot isPaused digitalRead random serialBT)
  | setup {s t : State} : Reachable s → setup s = .ok t → Reachable t
  | loop {s t : State} (fuel : Nat) : Reachable s → loop fuel s = .ok t → Reachable t

/-- The state a completed iteration of `loop` leaves (the input state if it does not
complete). -/
def afterLoop (fuel : Nat) (s : State) : State :=
  match loop fuel s with
  | .ok t => t
  | .error _ => s

/-- Sample world: the flag is never set, button 0 is held at every poll, `random`
always yields `symbol`. -/
def demoWorld (symbol : Nat) (serialBT : List (List Char)) : State :=
  boot (fun _ => false) (fun _ => true) (fun _ => symbol) serialBT

/-- Sample state for verification: Sequence `[0, 2, 1]`, flag never set, the given
`digitalRead` results pending. -/
def demoVerify (reads : List Bool) : State :=
  { boot (fun _ => false) (feed reads (fun _ => false)) (fun _ => 0) [] with
    gameSequence := [0, 2, 1] ++ List.replicate 97 0
    gameIndex := 3 }

/-- Sample state with Score 5 in which the next round is lost: the new symbol is 1 and
button 0 is pressed. -/
def demoLost : State :=
  { demoWorld 1 [['H', 'a', 'r', 'd']] with score := 5 }

/-- Sample state with Score 3 in which the flag is first observed set inside
`readButtons` (its fourth read in the iteration). -/
def demoPaused : State :=
  { boot (feed [false, false, false, true] (fun _ => false)) (fun _ => true) (fun _ => 0)
      [['H', 'a', 'r', 'd']] with score := 3 }

/-- Sample state with Score 2 in which the flag is observed set by `playSequence` at
position 0 and clear again at the check of line 297; the new symbol is 1 and button 0 is
pressed. -/
def demoToggle : State :=
  { boot (feed [false, true, false] (fun _ => false)) (fun _ => true) (fun _ => 1)
      [['H', 'a', 'r', 'd']] with score := 2 }

/-- Sample state with one stored symbol in which the flag is observed set by
`playSequence` at position 1 and still set at the check of line 297. -/
def demoAbort : State :=
  { boot (feed [false, false, true, true] (fun _ => false)) (fun _ => true) (fun _ => 0) []
      with gameIndex := 1, score := 4 }

/-- Sample state at capacity: Sequence length 99, Score 255. -/
def demoFull : State :=
  { demoWorld 0 [] with gameIndex := 99, score := 255 }

/-- Sample session: "Easy" is received at start, "banana" after the first loss. -/
def demoBanana : State :=
  demoWorld 1 [['E', 'a', 's', 'y'], ['b', 'a', 'n', 'a', 'n', 'a']]

/-- The state `setup` leaves (the input state if it does not complete). -/
def afterSetup (s : State) : State :=
  match setup s with
  | .ok t => t
  | .error _ => s

/-- Sample game: the flag is never set, the symbols 1, 2, 3 are drawn, and the user
repeats `[1]`, `[1, 2]`, `[1, 2, 3]` without idle polls. -/
def demoGrowth : State :=
  boot (fun _ => false)
    (feed (encodePresses [(0, 1), (0, 1), (0, 2), (0, 1), (0, 2), (0, 3)]) (fun _ => false))
    (fun k => k + 1) []

/-! ## Theorems -/

theorem strstr_go_isSome (pat : List Char) (hpat : pat ≠ []) (text : List Char) (i : Nat) :
    (strstr.go pat text i).isSome = true ↔ pat <:+: text := by
  induction text generalizing i with
  | nil =>
    cases pat with
    | nil => exact absurd rfl hpat
    | cons a l => simp [strstr.go]
  | cons c cs ih =>
    unfold strstr.go
    by_cases hp : pat.isPrefixOf (c :: cs) = true
    · rw [if_pos hp]
      have h1 : pat <+: c :: cs := List.isPrefixOf_iff_prefix.mp hp
      constructor
      · intro _
        exact h1.isInfix
      · intro _
        rfl
    · rw [if_neg hp, ih (i + 1), List.infix_cons_iff]
      have h1 : ¬ pat <+: c :: cs := fun h => hp (List.isPrefixOf_iff_prefix.mpr h)
      tauto

theorem indexOf_ne (pat : List Char) (hpat : pat ≠ []) (text : List Char) :
    indexOf pat text ≠ -1 ↔ pat <:+: cString text := by
  have key := strstr_go_isSome pat hpat (cString text) 0
  unfold indexOf
  by_cases hlen : text.length = 0
  · rw [if_pos hlen]
    have hnil : text = [] := List.length_eq_zero.mp hlen
    subst hnil
    constructor
    · intro h
      exact absurd rfl h
    · intro h
      have : pat = [] := by simpa [cString] using h
      exact absurd this hpat
  · rw [if_neg hlen]
    cases hs : strstr pat (cString text) with
    | none =>
      have h1 : strstr.go pat (cString text) 0 = none := hs
      rw [h1] at key
      constructor
      · intro h
        exact absurd rfl h
      · intro h
        have := key.mpr h
        simp at this
    | some j =>
      have h1 : strstr.go pat (cString text) 0 = some j := hs
      rw [h1] at key
      constructor
      · intro _
        exact key.mp rfl
      · intro _
        show (j : Int) ≠ -1
        omega

theorem cString_of_no_nul (text : List Char) (h : ∀ c ∈ text, c ≠ Char.ofNat 0) :
    cString text = text := by
  unfold cString
  rw [List.takeWhile_eq_self_iff]
  intro c hc
  simpa using h c hc

theorem pinModeLoop_ok : pinModeLoop 4 0 = .ok () := rfl

/-- C4 (amended). Difficulty selection reads the received text as a C string (the bytes
before its first NUL byte; the whole text when it has none) and matches it
case-sensitively against "Easy", "Medium", "Hard" in that priority order, identically in
`setup` and in `gameOver`: both complete, and if the C string contains "Easy" the
interval becomes 600 ms; otherwise if it contains "Medium", 300 ms; otherwise if it
contains "Hard", 100 ms. -/
theorem difficulty_mapping (s : State) (text : List Char) (pending : List (List Char))
    (h : s.serialBT = text :: pending) :
    ∃ s1 s2, setup s = .ok s1 ∧ gameOver s = .ok s2 ∧
      (['E', 'a', 's', 'y'] <:+: cString text → s1.delayTime = 600 ∧ s2.delayTime = 600) ∧
      (¬ ['E', 'a', 's', 'y'] <:+: cString text →
        ['M', 'e', 'd', 'i', 'u', 'm'] <:+: cString text →
        s1.delayTime = 300 ∧ s2.delayTime = 300) ∧
      (¬ ['E', 'a', 's', 'y'] <:+: cString text →
        ¬ ['M', 'e', 'd', 'i', 'u', 'm'] <:+: cString text →
        ['H', 'a', 'r', 'd'] <:+: cString text →
        s1.delayTime = 100 ∧ s2.delayTime = 100) ∧
      ((∀ c ∈ text, c ≠ Char.ofNat 0) → cString text = text) := by
  have hE := indexOf_ne ['E', 'a', 's', 'y'] (by simp) text
  have hM := indexOf_ne ['M', 'e', 'd', 'i', 'u', 'm'] (by simp) text
  have hH := indexOf_ne ['H', 'a', 'r', 'd'] (by simp) text
  have hcue : ∀ t : State, (gameOverCue 4 t).serialBT = t.serialBT := by
    intro t
    simp [gameOverCue, emit]
  have main : ∃ s1 s2, setup s = .ok s1 ∧ gameOver s = .ok s2 ∧
      (['E', 'a', 's', 'y'] <:+: cString text → s1.delayTime = 600 ∧ s2.delayTime = 600) ∧
      (¬ ['E', 'a', 's', 'y'] <:+: cString text →
        ['M', 'e', 'd', 'i', 'u', 'm'] <:+: cString text →
        s1.delayTime = 300 ∧ s2.delayTime = 300) ∧
      (¬ ['E', 'a', 's', 'y'] <:+: cString text →
        ¬ ['M', 'e', 'd', 'i', 'u', 'm'] <:+: cString text →
        ['H', 'a', 'r', 'd'] <:+: cString text →
        s1.delayTime = 100 ∧ s2.delayTime = 100) := by
    unfold setup gameOver
    rw [pinModeLoop_ok]
    simp only [hcue, emit, h]
    by_cases e : ['E', 'a', 's', 'y'] <:+: cString text
    · simp [hE.mpr e, e]
    · by_cases m : ['M', 'e', 'd', 'i', 'u', 'm'] <:+: cString text
      · simp [e, m, hM.mpr m, mt hE.mp e]
      · by_cases d : ['H', 'a', 'r', 'd'] <:+: cString text
        · simp [e, m, d, hH.mpr d, mt hE.mp e, mt hM.mp m]
        · simp [e, m, d, mt hE.mp e, mt hM.mp m, mt hH.mp d]
  obtain ⟨s1, s2, h1, h2, c1, c2, c3⟩ := main
  exact ⟨s1, s2, h1, h2, c1, c2, c3, cString_of_no_nul text⟩

theorem SameEngine.unchanged (s : State) : SameEngine s s := ⟨rfl, rfl, rfl, rfl, rfl, rfl⟩

theorem SameEngine.chain {s t u : State} (h1 : SameEngine s t) (h2 : SameEngine t u) :
    SameEngine s u := by
  refine ⟨h2.1.trans h1.1, h2.2.1.trans h1.2.1, h2.2.2.1.trans h1.2.2.1, ?_, ?_, ?_⟩
  · exact h2.2.2.2.1.trans h1.2.2.2.1
  · exact h2.2.2.2.2.1.trans h1.2.2.2.2.1
  · exact h2.2.2.2.2.2.trans h1.2.2.2.2.2

theorem LedsOnly.nothing (s : State) : LedsOnly s s := ⟨[], by simp, by simp⟩

theorem LedsOnly.of_trace_eq {s t : State} (h : t.trace = s.trace) : LedsOnly s t :=
  ⟨[], by simp, by simp [h]⟩

theorem LedsOnly.append {s t u : State} (h1 : LedsOnly s t) (h2 : LedsOnly t u) :
    LedsOnly s u := by
  obtain ⟨l1, a1, a2⟩ := h1
  obtain ⟨l2, b1, b2⟩ := h2
  refine ⟨l1 ++ l2, ?_, ?_⟩
  · intro e he
    rcases List.mem_append.mp he with h | h
    · exact a1 e h
    · exact b1 e h
  · rw [b2, a2, List.append_assoc]

theorem readIsPaused_same (s : State) : SameEngine s (readIsPaused s).2 :=
  ⟨rfl, rfl, rfl, rfl, rfl, rfl⟩

theorem readLow_same (s : State) : SameEngine s (readLow s).2 :=
  ⟨rfl, rfl, rfl, rfl, rfl, rfl⟩

theorem ledPins_some {i : Nat} {p : Nat} (h : ledPins[i]? = some p) : i < 4 := by
  have := (List.getElem?_eq_some_iff.mp h).1
  simpa [ledPins] using this

theorem lightLedAndVibrate_ok {i : Nat} {s t : State} (h : lightLedAndVibrate i s = .ok t) :
    i < 4 ∧ t = emit (.led i s.delayTime) s := by
  unfold lightLedAndVibrate at h
  split at h
  · cases h
  · next p hp =>
    injection h with h
    exact ⟨ledPins_some hp, h.symm⟩

theorem lightLedAndVibrate_of_lt {i : Nat} (h : i < 4) (s : State) :
    lightLedAndVibrate i s = .ok (emit (.led i s.delayTime) s) := by
  unfold lightLedAndVibrate
  have : ∃ p, ledPins[i]? = some p := by
    interval_cases i <;> simp [ledPins]
  obtain ⟨p, hp⟩ := this
  rw [hp]

theorem emit_same (e : Event) (s : State) : SameEngine s (emit e s) :=
  ⟨rfl, rfl, rfl, rfl, rfl, rfl⟩

theorem emit_led_ledsOnly {i : Nat} (h : i < 4) (ms : Nat) (s : State) :
    LedsOnly s (emit (.led i ms) s) :=
  ⟨[.led i ms], by simpa using h, rfl⟩

theorem playSequenceLoop_frame (todo : Nat) : ∀ (i : Nat) (s t : State),
    playSequenceLoop todo i s = .ok t → SameEngine s t ∧ LedsOnly s t := by
  induction todo with
  | zero =>
    intro i s t h
    simp only [playSequenceLoop] at h
    injection h with h
    subst h
    exact ⟨SameEngine.unchanged _, LedsOnly.nothing _⟩
  | succ n ih =>
    intro i s t h
    simp only [playSequenceLoop] at h
    split at h
    · injection h with h
      subst h
      exact ⟨readIsPaused_same s, LedsOnly.of_trace_eq rfl⟩
    · split at h
      · cases h
      · next led hled =>
        split at h
        · cases h
        · next s1 h1 =>
          obtain ⟨hlt, hs1⟩ := lightLedAndVibrate_ok h1
          obtain ⟨f1, f2⟩ := ih _ _ _ h
          subst hs1
          exact ⟨((readIsPaused_same s).chain (emit_same _ _)).chain f1,
            (LedsOnly.append (LedsOnly.of_trace_eq rfl) (emit_led_ledsOnly hlt _ _)).append f2⟩

theorem scanButtons_frame (todo : Nat) : ∀ (i : Nat) (s t : State) (r : Option Nat),
    scanButtons todo i s = .ok (r, t) →
      SameEngine s t ∧ t.trace = s.trace ∧ t.isPaused = s.isPaused ∧
        ∀ b, r = some b → i ≤ b ∧ b < i + todo := by
  induction todo with
  | zero =>
    intro i s t r h
    simp only [scanButtons] at h
    injection h with h
    injection h with h1 h2
    subst h1 h2
    exact ⟨SameEngine.unchanged _, rfl, rfl, by simp⟩
  | succ n ih =>
    intro i s t r h
    simp only [scanButtons] at h
    split at h
    · cases h
    · split at h
      · injection h with h
        injection h with h1 h2
        subst h1 h2
        refine ⟨readLow_same s, rfl, rfl, ?_⟩
        intro b hb
        injection hb with hb
        omega
      · obtain ⟨f1, f2, f3, f4⟩ := ih _ _ _ _ h
        refine ⟨(readLow_same s).chain f1, f2, f3, ?_⟩
        intro b hb
        have := f4 b hb
        omega

theorem readButtons_frame (fuel : Nat) : ∀ (s t : State) (b : Nat),
    readButtons fuel s = .ok (b, t) →
      SameEngine s t ∧ t.trace = s.trace ∧ (b < 4 ∨ b = 255) := by
  induction fuel with
  | zero =>
    intro s t b h
    simp only [readButtons] at h
    cases h
  | succ n ih =>
    intro s t b h
    simp only [readButtons] at h
    split at h
    · injection h with h
      injection h with h1 h2
      subst h1 h2
      exact ⟨readIsPaused_same s, rfl, Or.inr rfl⟩
    · split at h
      · cases h
      · next i s1 hs =>
        injection h with h
        injection h with h1 h2
        subst h1 h2
        obtain ⟨f1, f2, _, f4⟩ := scanButtons_frame _ _ _ _ _ hs
        have := f4 i rfl
        exact ⟨(readIsPaused_same s).chain f1, f2, Or.inl (by omega)⟩
      · next s1 hs =>
        obtain ⟨f1, f2, _, _⟩ := scanButtons_frame _ _ _ _ _ hs
        obtain ⟨g1, g2, g3⟩ := ih _ _ _ h
        exact ⟨((readIsPaused_same s).chain f1).chain g1, g2.trans f2, g3⟩

theorem checkUserSequenceLoop_frame (fuel todo : Nat) : ∀ (i : Nat) (s t : State) (b : Bool),
    checkUserSequenceLoop fuel todo i s = .ok (b, t) → SameEngine s t ∧ LedsOnly s t := by
  induction todo with
  | zero =>
    intro i s t b h
    simp only [checkUserSequenceLoop] at h
    injection h with h
    injection h with h1 h2
    subst h2
    exact ⟨SameEngine.unchanged _, LedsOnly.nothing _⟩
  | succ n ih =>
    intro i s t b h
    simp only [checkUserSequenceLoop] at h
    split at h
    · cases h
    · split at h
      · cases h
      · next actual s1 hr =>
        obtain ⟨f1, f2, _⟩ := readButtons_frame _ _ _ _ hr
        split at h
        · injection h with h
          injection h with h1 h2
          subst h2
          exact ⟨f1, LedsOnly.of_trace_eq f2⟩
        · split at h
          · cases h
          · next s2 hl =>
            obtain ⟨hlt, hs2⟩ := lightLedAndVibrate_ok hl
            subst hs2
            have e1 : SameEngine s (emit (.led actual s1.delayTime) s1) :=
              f1.chain (emit_same _ _)
            have e2 : LedsOnly s (emit (.led actual s1.delayTime) s1) :=
              (LedsOnly.of_trace_eq f2).append (emit_led_ledsOnly hlt _ _)
            split at h
            · injection h with h
              injection h with h1 h2
              subst h2
              exact ⟨e1, e2⟩
            · obtain ⟨g1, g2⟩ := ih _ _ _ _ h
              exact ⟨e1.chain g1, e2.append g2⟩

theorem pauseWait_frame (fuel : Nat) : ∀ (s t : State),
    pauseWait fuel s = .ok t → SameEngine s t ∧ t.trace = s.trace := by
  induction fuel with
  | zero =>
    intro s t h
    simp only [pauseWait] at h
    cases h
  | succ n ih =>
    intro s t h
    simp only [pauseWait] at h
    split at h
    · obtain ⟨g1, g2⟩ := ih _ _ h
      exact ⟨(readIsPaused_same s).chain g1, g2⟩
    · injection h with h
      subst h
      exact ⟨readIsPaused_same s, rfl⟩

theorem pauseCheckpoint_frame (fuel : Nat) (s t : State) (h : pauseCheckpoint fuel s = .ok t) :
    SameEngine s t ∧ t.trace = s.trace := by
  simp only [pauseCheckpoint] at h
  split at h
  · obtain ⟨g1, g2⟩ := pauseWait_frame _ _ _ h
    exact ⟨(readIsPaused_same s).chain g1, g2⟩
  · injection h with h
    subst h
    exact ⟨readIsPaused_same s, rfl⟩

theorem playLevelUpSequence_same (todo : Nat) : ∀ s : State,
    SameEngine s (playLevelUpSequence todo s) := by
  induction todo with
  | zero => intro s; exact SameEngine.unchanged s
  | succ n ih =>
    intro s
    simp only [playLevelUpSequence]
    split
    · exact readIsPaused_same s
    · exact ((readIsPaused_same s).chain (emit_same _ _)).chain (ih _)

theorem take_set_of_le (a : Nat) {n m : Nat} (l : List Nat) (h : m ≤ n) :
    (l.set n a).take m = l.take m :=
  List.ext_getElem? fun i => by
    rw [List.getElem?_take, List.getElem?_take]
    split
    · rw [List.getElem?_set_ne (by omega)]
    · rfl

theorem extendSequence_inv {s t : State} (h : extendSequence s = .ok t) :
    s.gameIndex < MAX_GAME_LENGTH ∧ s.gameIndex < s.gameSequence.length ∧
      t.gameSequence = s.gameSequence.set s.gameIndex (s.random 0 % 4) ∧
      t.gameIndex = min (s.gameIndex + 1) 99 ∧ t.score = s.score ∧
      t.delayTime = s.delayTime ∧ t.serialBT = s.serialBT ∧ t.trace = s.trace ∧
      t.isPaused = s.isPaused ∧ t.digitalRead = s.digitalRead := by
  simp only [extendSequence, random04, MAX_GAME_LENGTH] at h
  split at h
  · next hb =>
    have h256 : (s.gameIndex + 1) % 256 = s.gameIndex + 1 := Nat.mod_eq_of_lt (by omega)
    rw [h256] at h
    split at h
    · next hge =>
      injection h with h
      subst h
      refine ⟨hb.1, hb.2, rfl, ?_, rfl, rfl, rfl, rfl, rfl, rfl⟩
      simp only [ge_iff_le] at hge
      simp only []
      omega
    · next hlt =>
      injection h with h
      subst h
      refine ⟨hb.1, hb.2, rfl, ?_, rfl, rfl, rfl, rfl, rfl, rfl⟩
      simp only [ge_iff_le, not_le] at hlt
      simp only []
      omega
  · cases h

theorem extendSequence_ok (s : State) (h1 : s.gameIndex < MAX_GAME_LENGTH)
    (h2 : s.gameIndex < s.gameSequence.length) : ∃ t, extendSequence s = .ok t := by
  simp only [extendSequence, random04]
  rw [if_pos ⟨h1, h2⟩]
  split
  · exact ⟨_, rfl⟩
  · exact ⟨_, rfl⟩

theorem loopUntilVerified_inv {fuel : Nat} {s t : State} {v : Option Bool}
    (h : loopUntilVerified fuel s = .ok (v, t)) :
    s.gameIndex < MAX_GAME_LENGTH ∧ s.gameIndex < s.gameSequence.length ∧
      t.gameSequence = s.gameSequence.set s.gameIndex (s.random 0 % 4) ∧
      t.gameIndex = min (s.gameIndex + 1) 99 ∧ t.score = s.score ∧
      t.delayTime = s.delayTime ∧ t.serialBT = s.serialBT ∧ LedsOnly s t := by
  simp only [loopUntilVerified] at h
  split at h
  · cases h
  · next s1 h1 =>
    obtain ⟨⟨a1, a2, a3, a4, a5, a6⟩, a7⟩ := pauseCheckpoint_frame _ _ _ h1
    split at h
    · cases h
    · next s2 h2 =>
      obtain ⟨b1, b2, b3, b4, b5, b6, b7, b8, _, _⟩ := extendSequence_inv h2
      rw [a1, a2, a6] at b3
      rw [a2] at b1 b4
      rw [a1, a2] at b2
      split at h
      · cases h
      · next s3 h3 =>
        obtain ⟨⟨c1, c2, c3, c4, c5, _⟩, c7⟩ := playSequenceLoop_frame _ _ _ _ h3
        have l3 : LedsOnly s s3 :=
          (LedsOnly.of_trace_eq (b8.trans a7)).append c7
        split at h
        · injection h with h
          injection h with h1 h2
          subst h2
          refine ⟨b1, b2, c1.trans b3, c2.trans b4, (c3.trans b5).trans a3,
            (c4.trans b6).trans a4, (c5.trans b7).trans a5, ?_⟩
          exact l3.append (LedsOnly.of_trace_eq rfl)
        · split at h
          · cases h
          · next won s4 h4 =>
            injection h with h
            injection h with h1 h2
            subst h2
            obtain ⟨⟨d1, d2, d3, d4, d5, _⟩, d7⟩ := checkUserSequenceLoop_frame _ _ _ _ _ _ h4
            refine ⟨b1, b2, (d1.trans c1).trans b3, (d2.trans c2).trans b4,
              ((d3.trans c3).trans b5).trans a3, ((d4.trans c4).trans b6).trans a4,
              ((d5.trans c5).trans b7).trans a5, ?_⟩
            exact (l3.append (LedsOnly.of_trace_eq rfl)).append d7

theorem gameOverCue_four (s : State) :
    gameOverCue 4 s =
      { s with trace := s.trace ++ [.buzz 100, .buzz 100, .buzz 100, .buzz 100] } := by
  simp [gameOverCue, emit]

theorem gameOver_ok (s : State) (text : List Char) (pending : List (List Char))
    (h : s.serialBT = text :: pending) :
    ∃ t, gameOver s = .ok t ∧ t.score = 0 ∧ t.gameIndex = 0 ∧
      t.gameSequence = s.gameSequence ∧ t.serialBT = pending ∧
      t.trace = s.trace ++ [.send s.score, .buzz 100, .buzz 100, .buzz 100, .buzz 100] := by
  simp only [gameOver, gameOverCue_four, emit, h]
  split
  · exact ⟨_, rfl, rfl, rfl, rfl, rfl, by simp⟩
  · split
    · exact ⟨_, rfl, rfl, rfl, rfl, rfl, by simp⟩
    · split
      · exact ⟨_, rfl, rfl, rfl, rfl, rfl, by simp⟩
      · exact ⟨_, rfl, rfl, rfl, rfl, rfl, by simp⟩

theorem loopAfterVerified_won (s : State) :
    ∃ t, loopAfterVerified true s = .ok t ∧ t.score = (s.score + 1) % 256 ∧
      t.gameIndex = s.gameIndex ∧ t.gameSequence = s.gameSequence := by
  simp only [loopAfterVerified, Bool.not_true, Bool.false_eq_true, if_false]
  split
  · exact ⟨_, rfl, rfl, rfl, rfl⟩
  · split
    · refine ⟨_, rfl, ?_, ?_, ?_⟩
      · exact (playLevelUpSequence_same 3 _).2.2.1
      · exact (playLevelUpSequence_same 3 _).2.1
      · exact (playLevelUpSequence_same 3 _).1
    · exact ⟨_, rfl, rfl, rfl, rfl⟩

theorem loopAfterVerified_lost (s : State) (text : List Char) (pending : List (List Char))
    (h : s.serialBT = text :: pending) :
    ∃ t, loopAfterVerified false s = .ok t ∧ t.score = 0 ∧ t.gameIndex = 0 ∧
      t.gameSequence = s.gameSequence ∧
      t.trace = s.trace ++ [.send s.score, .buzz 100, .buzz 100, .buzz 100, .buzz 100] := by
  obtain ⟨u, hu, h1, h2, h3, _, h5⟩ := gameOver_ok s text pending h
  simp only [loopAfterVerified, Bool.not_false, if_true, hu]
  split
  · exact ⟨_, rfl, h1, h2, h3, h5⟩
  · have : ¬ (readIsPaused u).2.gameIndex > 0 := by
      have : (readIsPaused u).2.gameIndex = 0 := h2
      omega
    rw [if_neg this]
    exact ⟨_, rfl, h1, h2, h3, h5⟩

theorem loopAfterVerified_inv {won : Bool} {s t : State}
    (h : loopAfterVerified won s = .ok t) :
    t.gameSequence = s.gameSequence ∧ (t.gameIndex = s.gameIndex ∨ t.gameIndex = 0) := by
  cases won with
  | true =>
    obtain ⟨u, hu, _, h2, h3⟩ := loopAfterVerified_won s
    rw [hu] at h
    injection h with h
    subst h
    exact ⟨h3, Or.inl h2⟩
  | false =>
    cases hbt : s.serialBT with
    | nil =>
      simp [loopAfterVerified, gameOver, gameOverCue_four, emit, hbt] at h
    | cons text pending =>
      obtain ⟨u, hu, _, h2, h3, _⟩ := loopAfterVerified_lost s text pending hbt
      rw [hu] at h
      injection h with h
      subst h
      exact ⟨h3, Or.inr h2⟩

theorem WonRound.effect {s t : State} (h : WonRound s t) :
    s.gameIndex < MAX_GAME_LENGTH ∧ s.gameIndex < s.gameSequence.length ∧
      t.gameSequence = s.gameSequence.set s.gameIndex (s.random 0 % 4) ∧
      t.gameIndex = min (s.gameIndex + 1) 99 ∧ t.score = (s.score + 1) % 256 := by
  obtain ⟨fuel, s4, h1, h2⟩ := h
  obtain ⟨a1, a2, a3, a4, a5, _⟩ := loopUntilVerified_inv h1
  simp only [loop, h1] at h2
  obtain ⟨u, hu, b1, b2, b3⟩ := loopAfterVerified_won s4
  rw [hu] at h2
  injection h2 with h2
  subst h2
  exact ⟨a1, a2, b3.trans a3, b2.trans a4, by rw [b1, a5]⟩

/-- C6. Starting from an empty Sequence, after `k < 100` consecutively won rounds the
Sequence length `gameIndex` is `k`; and the next won round only appends: it brings the
length to `k + 1` (while that is below the capacity) and leaves the first `k` symbols
as they were. -/
theorem sequence_growth (s0 s : State) (k : Nat) (h0 : s0.gameIndex = 0)
    (hk : k < MAX_GAME_LENGTH) (hr : WonRounds k s0 s) :
    s.gameIndex = k ∧
      ∀ t, WonRound s t →
        (k + 1 < MAX_GAME_LENGTH → t.gameIndex = k + 1) ∧
          t.gameSequence.take k = s.gameSequence.take k := by
  have key : ∀ (n : Nat) (a b : State), WonRounds n a b → a.gameIndex = 0 →
      n < MAX_GAME_LENGTH → b.gameIndex = n := by
    intro n a b hab
    induction hab with
    | zero a => intro ha _; exact ha
    | succ hprev hwon ih =>
      intro ha hn
      have hp := ih ha (by omega)
      obtain ⟨_, _, _, e4, _⟩ := hwon.effect
      rw [e4, hp]
      simp only [MAX_GAME_LENGTH] at hn
      omega
  have hs := key k s0 s hr h0 hk
  refine ⟨hs, ?_⟩
  intro t ht
  obtain ⟨_, _, e3, e4, _⟩ := ht.effect
  constructor
  · intro hk1
    rw [e4, hs]
    simp only [MAX_GAME_LENGTH] at hk1
    omega
  · rw [e3, hs]
    exact take_set_of_le _ _ (le_refl k)

/-- C7. When a round starts with the Sequence length at capacity - 1 = 99, the extension
step succeeds and leaves the length at 99 and the symbols 0..98 unchanged; and after any
number of further won rounds the length is still 99 and the symbols 0..98 are still the
same. -/
theorem clamp_at_capacity (s : State) (hidx : s.gameIndex = MAX_GAME_LENGTH - 1)
    (hlen : s.gameSequence.length = MAX_GAME_LENGTH) :
    (∃ s2, extendSequence s = .ok s2 ∧ s2.gameIndex = MAX_GAME_LENGTH - 1 ∧
        s2.gameSequence.take 99 = s.gameSequence.take 99) ∧
      ∀ k t, WonRounds k s t →
        t.gameIndex = MAX_GAME_LENGTH - 1 ∧
          t.gameSequence.take 99 = s.gameSequence.take 99 := by
  simp only [MAX_GAME_LENGTH] at hidx hlen
  constructor
  · obtain ⟨s2, h2⟩ := extendSequence_ok s (by simp only [MAX_GAME_LENGTH]; omega) (by omega)
    obtain ⟨_, _, e3, e4, _⟩ := extendSequence_inv h2
    refine ⟨s2, h2, ?_, ?_⟩
    · rw [e4, hidx]
      rfl
    · rw [e3, hidx]
      exact take_set_of_le _ _ (le_refl 99)
  · intro k t hkt
    induction hkt with
    | zero a => exact ⟨hidx, rfl⟩
    | succ hprev hwon ih =>
      obtain ⟨i1, i2⟩ := ih hidx hlen
      obtain ⟨_, _, e3, e4, _⟩ := hwon.effect
      simp only [MAX_GAME_LENGTH] at i1
      constructor
      · rw [e4, i1]
        rfl
      · rw [e3, i1, take_set_of_le _ _ (le_refl 99)]
        exact i2

/-- C8 (amended). A loop iteration whose verification succeeds leaves the `uint8_t`
Score at its previous value plus one modulo 256; so after `k` consecutive won rounds
from a fresh game the Score is `k mod 256`, which is `k` for every `k ≤ 255`. -/
theorem score_increment (s t : State) (k : Nat) :
    (WonRound s t → t.score = (s.score + 1) % 256) ∧
      (s.score = 0 → WonRounds k s t → t.score = k % 256 ∧ (k ≤ 255 → t.score = k)) := by
  constructor
  · intro h
    exact h.effect.2.2.2.2
  · intro h0 hr
    have key : t.score = k % 256 := by
      induction hr with
      | zero a => simpa using h0
      | succ hprev hwon ih =>
        have hp := ih h0
        rw [hwon.effect.2.2.2.2, hp]
        omega
    refine ⟨key, ?_⟩
    intro hk
    rw [key]
    omega

/-- C3. Whenever the verification of a loop iteration fails (in particular on a genuine
mismatch) and a difficulty message arrives afterwards, the iteration completes; in it the
engine first only pulses LEDs, then sends the Score it had at the start of the iteration
exactly once, then plays the four 100 ms pulses of the failure cue and nothing else (no
150 ms level-up pulse); at the end Score is 0 and the Sequence length is 0. -/
theorem loss_reporting (fuel : Nat) (s s4 : State) (text : List Char)
    (pending : List (List Char))
    (hv : loopUntilVerified fuel s = .ok (some false, s4))
    (hbt : s.serialBT = text :: pending) :
    ∃ t leds, loop fuel s = .ok t ∧
      (∀ e ∈ leds, ∃ i ms, i < 4 ∧ e = Event.led i ms) ∧
      t.trace = s.trace ++ leds ++
        [.send s.score, .buzz 100, .buzz 100, .buzz 100, .buzz 100] ∧
      t.score = 0 ∧ t.gameIndex = 0 := by
  obtain ⟨_, _, _, _, a5, _, a7, leds, l1, l2⟩ := loopUntilVerified_inv hv
  obtain ⟨t, ht, b1, b2, _, b4⟩ := loopAfterVerified_lost s4 text pending (a7.trans hbt)
  refine ⟨t, leds, ?_, l1, ?_, b1, b2⟩
  · simp only [loop, hv]
    exact ht
  · rw [b4, l2, a5]

theorem feed_append {α : Type} (l1 l2 : List α) (f : Nat → α) :
    feed (l1 ++ l2) f = feed l1 (feed l2 f) := by
  induction l1 with
  | nil => rfl
  | cons a l ih =>
    funext k
    cases k with
    | zero => rfl
    | succ k =>
      show feed (l ++ l2) f k = feed l (feed l2 f) k
      rw [ih]

theorem scanButtons_idle (s : State) (rest : Nat → Bool)
    (h : s.digitalRead = feed [false, false, false, false] rest) :
    scanButtons 4 0 s = .ok (none, { s with digitalRead := rest }) := by
  cases s
  simp only at h
  subst h
  rfl

theorem scanButtons_hit (s : State) (b : Nat) (hb : b < 4) (rest : Nat → Bool)
    (h : s.digitalRead = feed (List.replicate b false ++ [true]) rest) :
    scanButtons 4 0 s = .ok (some b, { s with digitalRead := rest }) := by
  cases s
  simp only at h
  subst h
  interval_cases b <;> rfl

theorem readButtons_press (g : Nat) : ∀ (fuel b : Nat) (s : State) (rest : Nat → Bool),
    b < 4 → g < fuel → (∀ k, s.isPaused k = false) →
    s.digitalRead = feed (pressReads g b) rest →
    ∃ t, readButtons fuel s = .ok (b, t) ∧ t.digitalRead = rest ∧
      (∀ k, t.isPaused k = false) ∧ SameEngine s t ∧ t.trace = s.trace := by
  induction g with
  | zero =>
    intro fuel b s rest hb hf hp hr
    obtain ⟨f, rfl⟩ : ∃ f, fuel = f + 1 := ⟨fuel - 1, by omega⟩
    simp only [pressReads, Nat.mul_zero, Nat.zero_add] at hr
    have hscan := scanButtons_hit (readIsPaused s).2 b hb rest hr
    have hflag : (readIsPaused s).1 = false := hp 0
    simp only [readButtons, hflag, hscan, Bool.false_eq_true, if_false]
    exact ⟨_, rfl, rfl, fun k => hp (k + 1), readIsPaused_same s, rfl⟩
  | succ g ih =>
    intro fuel b s rest hb hf hp hr
    obtain ⟨f, rfl⟩ : ∃ f, fuel = f + 1 := ⟨fuel - 1, by omega⟩
    have hsplit : pressReads (g + 1) b = [false, false, false, false] ++ pressReads g b := by
      simp only [pressReads]
      have : 4 * (g + 1) + b = (4 * g + b) + 4 := by ring
      rw [this]
      simp [List.replicate_succ]
    rw [hsplit, feed_append] at hr
    have hscan := scanButtons_idle (readIsPaused s).2 _ hr
    have hflag : (readIsPaused s).1 = false := hp 0
    simp only [readButtons, hflag, hscan, Bool.false_eq_true, if_false]
    obtain ⟨t, h1, h2, h3, h4, h5⟩ :=
      ih f b { (readIsPaused s).2 with digitalRead := feed (pressReads g b) rest } rest hb
        (by omega) (fun k => hp (k + 1)) rfl
    exact ⟨t, h1, h2, h3, SameEngine.chain ⟨rfl, rfl, rfl, rfl, rfl, rfl⟩ h4, h5⟩

theorem checkUserSequenceLoop_spec (fuel todo : Nat) :
    ∀ (i : Nat) (s : State) (presses : List (Nat × Nat)) (rest : Nat → Bool),
    (∀ k, s.isPaused k = false) →
    todo ≤ presses.length →
    (∀ p ∈ presses, p.1 < fuel ∧ p.2 < 4) →
    i + todo ≤ MAX_GAME_LENGTH → i + todo ≤ s.gameSequence.length →
    s.digitalRead = feed (encodePresses presses) rest →
    ∃ b t, checkUserSequenceLoop fuel todo i s = .ok (b, t) ∧
      (b = true ↔
        (presses.map Prod.snd).take todo = (s.gameSequence.drop i).take todo) ∧
      (b = true →
        t.digitalRead = feed (encodePresses (presses.drop todo)) rest ∧
        t.trace = s.trace ++
          ((presses.map Prod.snd).take todo).map (fun x => Event.led x s.delayTime)) ∧
      (∀ j, j < todo →
        (∀ k, k < j → (presses.map Prod.snd)[k]? = (s.gameSequence.drop i)[k]?) →
        (presses.map Prod.snd)[j]? ≠ (s.gameSequence.drop i)[j]? →
        b = false ∧
        t.digitalRead = feed (encodePresses (presses.drop (j + 1))) rest ∧
        t.trace = s.trace ++
          ((presses.map Prod.snd).take (j + 1)).map (fun x => Event.led x s.delayTime)) := by
  induction todo with
  | zero =>
    intro i s presses rest _ _ _ _ _ hr
    refine ⟨true, s, rfl, by simp, ?_, ?_⟩
    · intro _
      exact ⟨by simpa using hr, by simp⟩
    · intro j hj
      omega
  | succ n ih =>
    intro i s presses rest hp hlen hpr hmax hseq hr
    cases presses with
    | nil => simp at hlen
    | cons p ps =>
      have hi : i < s.gameSequence.length := by omega
      have hdrop : s.gameSequence.drop i = s.gameSequence[i] :: s.gameSequence.drop (i + 1) :=
        List.drop_eq_getElem_cons hi
      have hget : (if i < MAX_GAME_LENGTH then s.gameSequence[i]? else none)
          = some s.gameSequence[i] := by
        rw [if_pos (by omega), List.getElem?_eq_getElem hi]
      obtain ⟨hp1, hp2⟩ := hpr p (List.mem_cons_self _ _)
      have hr1 : s.digitalRead = feed (pressReads p.1 p.2) (feed (encodePresses ps) rest) := by
        rw [hr, encodePresses, feed_append]
      obtain ⟨t1, hread, hdr, hpz, hsame, htr⟩ :=
        readButtons_press p.1 fuel p.2 s _ hp2 hp1 hp hr1
      have hne : p.2 ≠ 255 := by omega
      have hlight := lightLedAndVibrate_of_lt hp2 t1
      obtain ⟨q1, _, _, q4, _, _⟩ := hsame
      simp only [checkUserSequenceLoop, hget, hread, hne, if_false, hlight]
      by_cases hexp : s.gameSequence[i] = p.2
      · rw [if_neg (by simpa using hexp)]
        obtain ⟨b, t, hrun, hb1, hb2, hb3⟩ :=
          ih (i + 1) (emit (.led p.2 t1.delayTime) t1) ps rest hpz
            (by simpa using hlen) (fun x hx => hpr x (List.mem_cons_of_mem _ hx))
            (by omega) (by
              show i + 1 + n ≤ t1.gameSequence.length
              rw [q1]; omega) hdr
        have hseq1 : (emit (.led p.2 t1.delayTime) t1).gameSequence = s.gameSequence := q1
        have htr1 : (emit (.led p.2 t1.delayTime) t1).trace
            = s.trace ++ [.led p.2 s.delayTime] := by
          show t1.trace ++ _ = _
          rw [htr, q4]
        have hdl1 : (emit (.led p.2 t1.delayTime) t1).delayTime = s.delayTime := q4
        rw [hseq1] at hb1 hb3
        rw [htr1, hdl1] at hb2 hb3
        refine ⟨b, t, hrun, ?_, ?_, ?_⟩
        · rw [hb1, hdrop]
          simp [hexp]
        · intro hb
          obtain ⟨c1, c2⟩ := hb2 hb
          refine ⟨by simpa using c1, ?_⟩
          rw [c2]
          simp
        · intro j hj hpre hdiff
          cases j with
          | zero =>
            exfalso
            apply hdiff
            rw [hdrop]
            simp [hexp]
          | succ j =>
            have hpre1 : ∀ k, k < j →
                (ps.map Prod.snd)[k]? = (s.gameSequence.drop (i + 1))[k]? := by
              intro k hk
              have := hpre (k + 1) (by omega)
              rw [hdrop] at this
              simpa only [List.map_cons, List.getElem?_cons_succ] using this
            have hdiff1 : (ps.map Prod.snd)[j]? ≠ (s.gameSequence.drop (i + 1))[j]? := by
              intro h
              apply hdiff
              rw [hdrop]
              simpa only [List.map_cons, List.getElem?_cons_succ] using h
            obtain ⟨c0, c1, c2⟩ := hb3 j (by omega) hpre1 hdiff1
            refine ⟨c0, by simpa using c1, ?_⟩
            rw [c2]
            simp
      · rw [if_pos (by simpa using hexp)]
        refine ⟨false, _, rfl, ?_, ?_, ?_⟩
        · rw [hdrop]
          simp only [Bool.false_eq_true, false_iff]
          intro h
          simp only [List.map_cons, List.take_succ_cons, List.cons.injEq] at h
          exact hexp h.1.symm
        · intro h
          cases h
        · intro j hj hpre hdiff
          cases j with
          | zero =>
            refine ⟨rfl, by simpa using hdr, ?_⟩
            show t1.trace ++ _ = _
            rw [htr, q4]
            simp
          | succ j =>
            exfalso
            have := hpre 0 (by omega)
            rw [hdrop] at this
            simp only [List.map_cons, List.getElem?_cons_zero, Option.some.injEq] at this
            exact hexp this.symm

theorem exists_first_diff (n : Nat) : ∀ (a e : List Nat), n ≤ a.length → n ≤ e.length →
    a.take n ≠ e.take n →
    ∃ j, j < n ∧ (∀ k, k < j → a[k]? = e[k]?) ∧ a[j]? ≠ e[j]? := by
  induction n with
  | zero =>
    intro a e _ _ h
    simp at h
  | succ n ih =>
    intro a e ha he h
    cases a with
    | nil => simp at ha
    | cons x a =>
      cases e with
      | nil => simp at he
      | cons y e =>
        by_cases hxy : x = y
        · subst hxy
          have h1 : a.take n ≠ e.take n := by
            intro h2
            apply h
            simp [h2]
          obtain ⟨j, hj, hpre, hdiff⟩ :=
            ih a e (by simpa using ha) (by simpa using he) h1
          refine ⟨j + 1, by omega, ?_, by simpa using hdiff⟩
          intro k hk
          cases k with
          | zero => simp
          | succ k => simpa using hpre k (by omega)
        · exact ⟨0, by omega, by intro k hk; omega, by simpa using hxy⟩

/-- C1. With the Pause Flag never set, for every stored sequence (the first `gameIndex`
cells of `gameSequence`) and every stream of button presses (each press given by the
number of idle polls before it and the button, fed to `digitalRead`), with fuel above
every gap, `checkUserSequence` returns; it returns `true` exactly when the first
`gameIndex` presses equal the sequence element by element, having consumed exactly those
presses and echoed each; and it returns `false` exactly when there is a first mismatching
position `j`, having consumed and echoed exactly the presses `0..j` and none after. -/
theorem verification_correct (fuel : Nat) (s : State) (presses : List (Nat × Nat))
    (rest : Nat → Bool)
    (hflag : ∀ k, s.isPaused k = false)
    (hmax : s.gameIndex ≤ MAX_GAME_LENGTH)
    (hseq : s.gameIndex ≤ s.gameSequence.length)
    (hlen : s.gameIndex ≤ presses.length)
    (hpr : ∀ p ∈ presses, p.1 < fuel ∧ p.2 < 4)
    (hreads : s.digitalRead = feed (encodePresses presses) rest) :
    ∃ b t, checkUserSequence fuel s = .ok (b, t) ∧
      (b = true ↔
        (presses.map Prod.snd).take s.gameIndex = s.gameSequence.take s.gameIndex) ∧
      (b = true →
        t.digitalRead = feed (encodePresses (presses.drop s.gameIndex)) rest ∧
        t.trace = s.trace ++ ((presses.map Prod.snd).take s.gameIndex).map
          (fun x => Event.led x s.delayTime)) ∧
      (∀ j, j < s.gameIndex →
        (∀ k, k < j → (presses.map Prod.snd)[k]? = s.gameSequence[k]?) →
        (presses.map Prod.snd)[j]? ≠ s.gameSequence[j]? →
        b = false ∧
        t.digitalRead = feed (encodePresses (presses.drop (j + 1))) rest ∧
        t.trace = s.trace ++ ((presses.map Prod.snd).take (j + 1)).map
          (fun x => Event.led x s.delayTime)) ∧
      (b = false → ∃ j, j < s.gameIndex ∧
        (∀ k, k < j → (presses.map Prod.snd)[k]? = s.gameSequence[k]?) ∧
        (presses.map Prod.snd)[j]? ≠ s.gameSequence[j]?) := by
  obtain ⟨b, t, h1, h2, h3, h4⟩ :=
    checkUserSequenceLoop_spec fuel s.gameIndex 0 s presses rest hflag hlen hpr
      (by omega) (by omega) hreads
  simp only [List.drop_zero] at h2 h4
  refine ⟨b, t, h1, h2, h3, h4, ?_⟩
  intro hb
  have hne : (presses.map Prod.snd).take s.gameIndex ≠ s.gameSequence.take s.gameIndex := by
    intro h
    rw [h2.mpr h] at hb
    cases hb
  exact exists_first_diff s.gameIndex _ _ (by simpa using hlen) hseq hne

theorem playSequenceLoop_abort (i : Nat) : ∀ (todo i0 : Nat) (s : State),
    i < todo → i0 + todo ≤ MAX_GAME_LENGTH → i0 + todo ≤ s.gameSequence.length →
    (∀ x ∈ s.gameSequence, x < 4) →
    (∀ k, k < i → s.isPaused k = false) → s.isPaused i = true →
    ∃ t, playSequenceLoop todo i0 s = .ok t ∧
      t.trace = s.trace ++
        ((s.gameSequence.drop i0).take i).map (fun x => Event.led x s.delayTime) ∧
      (∀ k, t.isPaused k = s.isPaused (k + (i + 1))) ∧ SameEngine s t := by
  induction i with
  | zero =>
    intro todo i0 s htodo _ _ _ _ hset
    obtain ⟨n, rfl⟩ : ∃ n, todo = n + 1 := ⟨todo - 1, by omega⟩
    have hflag : (readIsPaused s).1 = true := hset
    simp only [playSequenceLoop, hflag, if_true]
    exact ⟨_, rfl, by simp [readIsPaused], fun k => rfl, readIsPaused_same s⟩
  | succ i ih =>
    intro todo i0 s htodo hmax hlen hsym hclear hset
    obtain ⟨n, rfl⟩ : ∃ n, todo = n + 1 := ⟨todo - 1, by omega⟩
    have hflag : (readIsPaused s).1 = false := hclear 0 (by omega)
    have hi0 : i0 < s.gameSequence.length := by omega
    have hget : (if i0 < MAX_GAME_LENGTH then (readIsPaused s).2.gameSequence[i0]? else none)
        = some s.gameSequence[i0] := by
      rw [if_pos (by omega)]
      exact List.getElem?_eq_getElem hi0
    have hx : s.gameSequence[i0] < 4 := hsym _ (List.getElem_mem _)
    have hlight := lightLedAndVibrate_of_lt hx (readIsPaused s).2
    simp only [playSequenceLoop, hflag, Bool.false_eq_true, if_false, hget, hlight]
    obtain ⟨t, h1, h2, h3, h4⟩ :=
      ih n (i0 + 1) (emit (.led s.gameSequence[i0] (readIsPaused s).2.delayTime)
          (readIsPaused s).2)
        (by omega) (by omega) (by show i0 + 1 + n ≤ s.gameSequence.length; omega) hsym
        (fun k hk => hclear (k + 1) (by omega)) hset
    refine ⟨t, h1, ?_, ?_, SameEngine.chain ⟨rfl, rfl, rfl, rfl, rfl, rfl⟩ h4⟩
    · rw [h2, List.drop_eq_getElem_cons hi0]
      show (s.trace ++ [Event.led s.gameSequence[i0] s.delayTime]) ++
          List.map (fun x => Event.led x s.delayTime)
            (List.take i (List.drop (i0 + 1) s.gameSequence)) = _
      simp only [List.take_succ_cons, List.map_cons, List.append_assoc, List.singleton_append]
    · intro k
      rw [h3 k]
      show s.isPaused (k + (i + 1) + 1) = s.isPaused (k + (i + 1 + 1))
      rfl

/-- C9 (amended). If, after the pause checkpoint and the extension step of an iteration,
`playSequence` observes the flag clear at positions `0..i-1` and set at position `i`,
then `playSequence` plays exactly the symbols at indices below `i` and none at index `i`
or later; and if the flag is still observed set at the check that follows `playSequence`
(line 297), the iteration ends there: Score is unchanged, nothing is transmitted (the
iteration adds only those LED pulses to the trace) and the Sequence keeps its extended
length and contents. -/
theorem playback_pause_abort (fuel : Nat) (s s1 : State) (i : Nat)
    (hcp : pauseCheckpoint fuel s = .ok s1)
    (hlen : s.gameSequence.length = MAX_GAME_LENGTH)
    (hidx : s.gameIndex < MAX_GAME_LENGTH)
    (hsym : ∀ x ∈ s.gameSequence, x < 4)
    (hi : i < min (s.gameIndex + 1) 99)
    (hclear : ∀ k, k < i → s1.isPaused k = false)
    (hset : s1.isPaused i = true) :
    (∃ s2 s3, extendSequence s1 = .ok s2 ∧ playSequence s2 = .ok s3 ∧
        s3.trace = s.trace ++
          (s2.gameSequence.take i).map (fun x => Event.led x s.delayTime)) ∧
      (s1.isPaused (i + 1) = true →
        ∃ t, loop fuel s = .ok t ∧ t.score = s.score ∧
          t.gameIndex = min (s.gameIndex + 1) 99 ∧
          t.gameSequence = s.gameSequence.set s.gameIndex (s.random 0 % 4) ∧
          t.trace = s.trace ++
            (t.gameSequence.take i).map (fun x => Event.led x s.delayTime)) := by
  obtain ⟨⟨a1, a2, a3, a4, a5, a6⟩, a7⟩ := pauseCheckpoint_frame _ _ _ hcp
  obtain ⟨s2, h2⟩ := extendSequence_ok s1 (by rw [a2]; exact hidx)
    (by rw [a1, a2, hlen]; exact hidx)
  obtain ⟨_, _, b3, b4, b5, b6, b7, b8, b9, _⟩ := extendSequence_inv h2
  have hlen2 : s2.gameSequence.length = MAX_GAME_LENGTH := by
    rw [b3, List.length_set, a1, hlen]
  have hsym2 : ∀ x ∈ s2.gameSequence, x < 4 := by
    intro x hx
    rw [b3] at hx
    rcases List.mem_or_eq_of_mem_set hx with h | h
    · rw [a1] at h
      exact hsym x h
    · rw [h]
      exact Nat.mod_lt _ (by omega)
  have hg2 : s2.gameIndex = min (s.gameIndex + 1) 99 := by rw [b4, a2]
  obtain ⟨s3, h3, c2, c3, c4⟩ :=
    playSequenceLoop_abort i s2.gameIndex 0 s2 (by rw [hg2]; exact hi)
      (by rw [hg2]; simp only [MAX_GAME_LENGTH]; omega)
      (by rw [hg2, hlen2]; simp only [MAX_GAME_LENGTH]; omega) hsym2
      (fun k hk => by rw [b9]; exact hclear k hk) (by rw [b9]; exact hset)
  have htr3 : s3.trace = s.trace ++
      (s2.gameSequence.take i).map (fun x => Event.led x s.delayTime) := by
    rw [c2, b8, a7, b6, a4]
    simp only [List.drop_zero]
  refine ⟨⟨s2, s3, h2, h3, htr3⟩, ?_⟩
  intro hstill
  have hflag : (readIsPaused s3).1 = true := by
    show s3.isPaused 0 = true
    rw [c3 0, b9]
    simpa using hstill
  obtain ⟨d1, d2, d3, _, _, _⟩ := c4
  have hseq3 : s3.gameSequence = s.gameSequence.set s.gameIndex (s.random 0 % 4) := by
    rw [d1, b3, a1, a2, a6]
  refine ⟨(readIsPaused s3).2, ?_, ?_, ?_, hseq3, ?_⟩
  · have h3a : playSequence s2 = .ok s3 := h3
    simp only [loop, loopUntilVerified, hcp, h2, h3a, hflag, if_true]
  · show s3.score = s.score
    rw [d3, b5, a3]
  · show s3.gameIndex = _
    rw [d2, hg2]
  · show s3.trace = s.trace ++ (s3.gameSequence.take i).map _
    rw [htr3, d1]

theorem scanButtons_noOOB (todo : Nat) : ∀ (i : Nat) (s : State), i + todo ≤ 4 →
    scanButtons todo i s ≠ .error .outOfBounds := by
  induction todo with
  | zero =>
    intro i s _ h
    simp [scanButtons] at h
  | succ n ih =>
    intro i s hi
    have : ∃ p, buttonPins[i]? = some p := by
      have hi4 : i < 4 := by omega
      interval_cases i <;> simp [buttonPins]
    obtain ⟨p, hp⟩ := this
    simp only [scanButtons, hp]
    split
    · intro h
      cases h
    · exact ih _ _ (by omega)

theorem readButtons_noOOB (fuel : Nat) : ∀ s : State,
    readButtons fuel s ≠ .error .outOfBounds := by
  induction fuel with
  | zero =>
    intro s h
    simp [readButtons] at h
  | succ n ih =>
    intro s
    simp only [readButtons]
    split
    · intro h
      cases h
    · split
      · next e he =>
        intro h
        injection h with h
        subst h
        exact scanButtons_noOOB 4 0 _ (by omega) he
      · intro h
        cases h
      · exact ih _

theorem playSequenceLoop_noOOB (todo : Nat) : ∀ (i : Nat) (s : State),
    i + todo ≤ MAX_GAME_LENGTH → s.gameSequence.length = MAX_GAME_LENGTH →
    (∀ x ∈ s.gameSequence, x < 4) →
    playSequenceLoop todo i s ≠ .error .outOfBounds := by
  induction todo with
  | zero =>
    intro i s _ _ _ h
    simp [playSequenceLoop] at h
  | succ n ih =>
    intro i s hi hlen hsym
    have hi0 : i < s.gameSequence.length := by omega
    have hget : (if i < MAX_GAME_LENGTH then (readIsPaused s).2.gameSequence[i]? else none)
        = some s.gameSequence[i] := by
      rw [if_pos (by omega)]
      exact List.getElem?_eq_getElem hi0
    have hx : s.gameSequence[i] < 4 := hsym _ (List.getElem_mem _)
    have hlight := lightLedAndVibrate_of_lt hx (readIsPaused s).2
    simp only [playSequenceLoop, hget, hlight]
    split
    · intro h
      cases h
    · exact ih _ _ (by omega) hlen hsym

theorem checkUserSequenceLoop_noOOB (fuel todo : Nat) : ∀ (i : Nat) (s : State),
    i + todo ≤ MAX_GAME_LENGTH → s.gameSequence.length = MAX_GAME_LENGTH →
    checkUserSequenceLoop fuel todo i s ≠ .error .outOfBounds := by
  induction todo with
  | zero =>
    intro i s _ _ h
    simp [checkUserSequenceLoop] at h
  | succ n ih =>
    intro i s hi hlen
    have hi0 : i < s.gameSequence.length := by omega
    have hget : (if i < MAX_GAME_LENGTH then s.gameSequence[i]? else none)
        = some s.gameSequence[i] := by
      rw [if_pos (by omega)]
      exact List.getElem?_eq_getElem hi0
    simp only [checkUserSequenceLoop, hget]
    split
    · next e he =>
      intro h
      injection h with h
      subst h
      exact readButtons_noOOB _ _ he
    · next actual s1 hr =>
      obtain ⟨⟨f1, _⟩, _, f3⟩ := readButtons_frame _ _ _ _ hr
      split
      · intro h
        cases h
      · next hne =>
        have hlt : actual < 4 := by
          rcases f3 with h | h
          · exact h
          · exact absurd h hne
        rw [lightLedAndVibrate_of_lt hlt]
        simp only []
        split
        · intro h
          cases h
        · exact ih _ _ (by omega) (by
            show s1.gameSequence.length = _
            rw [f1, hlen])

theorem Inv.extend {s t : State} (hs : Inv s) (h : extendSequence s = .ok t) : Inv t := by
  obtain ⟨h1, h2, h3⟩ := hs
  obtain ⟨_, _, b3, b4, _⟩ := extendSequence_inv h
  refine ⟨by rw [b3, List.length_set, h1], ?_, ?_⟩
  · rw [b4]
    simp only [MAX_GAME_LENGTH] at h2 ⊢
    omega
  · intro x hx
    rw [b3] at hx
    rcases List.mem_or_eq_of_mem_set hx with h | h
    · exact h3 x h
    · rw [h]
      exact Nat.mod_lt _ (by omega)

theorem Inv.of_same {s t : State} (hs : Inv s) (h : SameEngine s t) : Inv t := by
  obtain ⟨h1, h2, h3⟩ := hs
  obtain ⟨a1, a2, _⟩ := h
  exact ⟨by rw [a1]; exact h1, by rw [a2]; exact h2, by rw [a1]; exact h3⟩

theorem loopUntilVerified_noOOB (fuel : Nat) (s : State) (hs : Inv s) :
    loopUntilVerified fuel s ≠ .error .outOfBounds := by
  simp only [loopUntilVerified]
  split
  · next e he =>
    intro h
    injection h with h
    subst h
    simp only [pauseCheckpoint] at he
    split at he
    · have : ∀ (f : Nat) (u : State), pauseWait f u ≠ .error .outOfBounds := by
        intro f
        induction f with
        | zero => intro u h; simp [pauseWait] at h
        | succ n ih =>
          intro u
          simp only [pauseWait]
          split
          · exact ih _
          · intro h; cases h
      exact this _ _ he
    · cases he
  · next s1 h1 =>
    have i1 : Inv s1 := hs.of_same (pauseCheckpoint_frame _ _ _ h1).1
    obtain ⟨s2, h2⟩ := extendSequence_ok s1 i1.2.1 (by rw [i1.1]; exact i1.2.1)
    have i2 : Inv s2 := i1.extend h2
    rw [h2]
    simp only []
    split
    · next e he =>
      intro h
      injection h with h
      subst h
      exact playSequenceLoop_noOOB _ 0 s2 (by have := i2.2.1; omega) i2.1 i2.2.2 he
    · next s3 h3 =>
      have i3 : Inv s3 := i2.of_same (playSequenceLoop_frame _ _ _ _ h3).1
      split
      · intro h
        cases h
      · split
        · next e he =>
          intro h
          injection h with h
          subst h
          have i4 : Inv (readIsPaused s3).2 := i3.of_same (readIsPaused_same s3)
          exact checkUserSequenceLoop_noOOB _ _ 0 _ (by have := i4.2.1; omega) i4.1 he
        · intro h
          cases h

theorem loopAfterVerified_noOOB (won : Bool) (s : State) :
    loopAfterVerified won s ≠ .error .outOfBounds := by
  cases won with
  | true =>
    obtain ⟨u, hu, _⟩ := loopAfterVerified_won s
    rw [hu]
    intro h
    cases h
  | false =>
    cases hbt : s.serialBT with
    | nil => simp [loopAfterVerified, gameOver, gameOverCue_four, emit, hbt]
    | cons text pending =>
      obtain ⟨u, hu, _⟩ := loopAfterVerified_lost s text pending hbt
      rw [hu]
      intro h
      cases h

theorem loop_noOOB (fuel : Nat) (s : State) (hs : Inv s) :
    loop fuel s ≠ .error .outOfBounds := by
  simp only [loop]
  split
  · next e he =>
    intro h
    injection h with h
    subst h
    exact loopUntilVerified_noOOB fuel s hs he
  · intro h
    cases h
  · exact loopAfterVerified_noOOB _ _

theorem Inv.loop {fuel : Nat} {s t : State} (hs : Inv s) (h : loop fuel s = .ok t) :
    Inv t := by
  have key : ∀ (v : Option Bool) (u : State), loopUntilVerified fuel s = .ok (v, u) →
      Inv u := by
    intro v u hu
    obtain ⟨_, _, b3, b4, _⟩ := loopUntilVerified_inv hu
    obtain ⟨h1, h2, h3⟩ := hs
    refine ⟨by rw [b3, List.length_set, h1], ?_, ?_⟩
    · rw [b4]
      simp only [MAX_GAME_LENGTH] at h2 ⊢
      omega
    · intro x hx
      rw [b3] at hx
      rcases List.mem_or_eq_of_mem_set hx with h | h
      · exact h3 x h
      · rw [h]
        exact Nat.mod_lt _ (by omega)
  simp only [SimonDice.loop] at h
  split at h
  · cases h
  · next u hu =>
    injection h with h
    subst h
    exact key _ _ hu
  · next won u hu =>
    obtain ⟨h1, h2, h3⟩ := key _ _ hu
    obtain ⟨c1, c2⟩ := loopAfterVerified_inv h
    refine ⟨by rw [c1]; exact h1, ?_, by rw [c1]; exact h3⟩
    rcases c2 with c | c
    · rw [c]; exact h2
    · rw [c]; simp [MAX_GAME_LENGTH]

theorem setup_inv {s t : State} (h : setup s = .ok t) :
    t.gameSequence = s.gameSequence ∧ t.gameIndex = s.gameIndex := by
  simp only [setup, pinModeLoop_ok] at h
  split at h
  · cases h
  · split at h
    · injection h with h; subst h; exact ⟨rfl, rfl⟩
    · split at h
      · injection h with h; subst h; exact ⟨rfl, rfl⟩
      · split at h
        · injection h with h; subst h; exact ⟨rfl, rfl⟩
        · injection h with h; subst h; exact ⟨rfl, rfl⟩

theorem setup_noOOB (s : State) : setup s ≠ .error .outOfBounds := by
  simp only [setup, pinModeLoop_ok]
  split
  · intro h; cases h
  · split
    · intro h; cases h
    · split
      · intro h; cases h
      · split
        · intro h; cases h
        · intro h; cases h

/-- C10. In every state reachable from boot by `setup` and any sequence of completed
`loop` iterations (won, lost or paused; any random values, button levels, flag values
and messages), the array has its 100 cells, the write index `gameIndex` is below 100
and every stored symbol is below 4; and from such a state neither `setup` nor `loop`
with any fuel ever indexes `gameSequence`, `ledPins` or `buttonPins` out of bounds. -/
theorem indexing_in_bounds (s : State) (h : Reachable s) :
    (s.gameSequence.length = MAX_GAME_LENGTH ∧ s.gameIndex < MAX_GAME_LENGTH ∧
        ∀ x ∈ s.gameSequence, x < 4) ∧
      (∀ fuel, loop fuel s ≠ .error .outOfBounds) ∧
      setup s ≠ .error .outOfBounds := by
  have hinv : Inv s := by
    induction h with
    | boot p d r b =>
      refine ⟨by simp [boot], by simp [boot, MAX_GAME_LENGTH], ?_⟩
      intro x hx
      simp only [boot] at hx
      rw [List.eq_of_mem_replicate hx]
      omega
    | setup _ hset ih =>
      obtain ⟨c1, c2⟩ := setup_inv hset
      exact ⟨by rw [c1]; exact ih.1, by rw [c2]; exact ih.2.1, by rw [c1]; exact ih.2.2⟩
    | loop fuel _ hloop ih => exact ih.loop hloop
  exact ⟨hinv, fun fuel => loop_noOOB fuel s hinv, setup_noOOB s⟩

/-- C1, witness: Sequence `[0, 2, 1]`; the presses 0, 2 (after one idle poll), 1 succeed,
and the presses 0, 2, 3 fail after exactly three echoed presses. -/
theorem verification_correct_witness :
    (∃ t, checkUserSequence 2 (demoVerify (encodePresses [(0, 0), (1, 2), (0, 1)]))
        = .ok (true, t)) ∧
      (∃ t, checkUserSequence 2 (demoVerify (encodePresses [(0, 0), (0, 2), (0, 3)]))
        = .ok (false, t) ∧
        t.trace = [.led 0 300, .led 2 300, .led 3 300]) := by
  constructor
  · obtain ⟨b, t, h1, h2, _⟩ :=
      verification_correct 2 (demoVerify (encodePresses [(0, 0), (1, 2), (0, 1)]))
        [(0, 0), (1, 2), (0, 1)] (fun _ => false) (fun _ => rfl) (by decide) (by decide)
        (by decide) (by decide) rfl
    have hb : b = true := h2.mpr (by decide)
    subst hb
    exact ⟨t, h1⟩
  · obtain ⟨b, t, h1, _, _, h4, _⟩ :=
      verification_correct 2 (demoVerify (encodePresses [(0, 0), (0, 2), (0, 3)]))
        [(0, 0), (0, 2), (0, 3)] (fun _ => false) (fun _ => rfl) (by decide) (by decide)
        (by decide) (by decide) rfl
    obtain ⟨hb, _, htr⟩ := h4 2 (by decide) (by decide) (by decide)
    subst hb
    exact ⟨t, h1, htr⟩

/-- C2, the code at a failing input: in `demoPaused` (Score 3, one symbol after the
extension) the flag is first observed set inside `readButtons`; `checkUserSequence`
gives `false` without echoing any press (the only LED pulse is the playback), and the
iteration then runs the game-over path: Score 3 is transmitted, the failure cue is
played, Score and Sequence length are reset to 0. -/
theorem pause_during_input_runs_gameOver :
    ∃ s4 t, loopUntilVerified 1 demoPaused = .ok (some false, s4) ∧
      s4.trace = [.led 0 300] ∧ loop 1 demoPaused = .ok t ∧
      t.trace = [.led 0 300, .send 3, .buzz 100, .buzz 100, .buzz 100, .buzz 100] ∧
      t.score = 0 ∧ t.gameIndex = 0 :=
  ⟨_, _, rfl, rfl, rfl, rfl, rfl, rfl⟩

/-- C3, witness: in `demoLost` (Score 5) button 0 answers symbol 1; the iteration sends
5 once, plays the failure cue, and ends with Score 0 and length 0. -/
theorem loss_reporting_witness :
    ∃ t leds, loop 1 demoLost = .ok t ∧
      (∀ e ∈ leds, ∃ i ms, i < 4 ∧ e = Event.led i ms) ∧
      t.trace = demoLost.trace ++ leds ++
        [.send demoLost.score, .buzz 100, .buzz 100, .buzz 100, .buzz 100] ∧
      t.score = 0 ∧ t.gameIndex = 0 :=
  loss_reporting 1 demoLost _ ['H', 'a', 'r', 'd'] [] rfl rfl

/-- C4, counterexample: the received bytes NUL, 'E', 'a', 's', 'y' contain "Easy", but
the C string in the buffer is empty; `setup` on the boot state leaves the interval at
300 ms, and so does `gameOver`, instead of selecting 600 ms. -/
theorem nul_before_keyword_not_matched :
    ['E', 'a', 's', 'y'] <:+: [Char.ofNat 0, 'E', 'a', 's', 'y'] ∧
      ∃ s1 s2, setup (demoWorld 0 [[Char.ofNat 0, 'E', 'a', 's', 'y']]) = .ok s1 ∧
        gameOver (demoWorld 0 [[Char.ofNat 0, 'E', 'a', 's', 'y']]) = .ok s2 ∧
        s1.delayTime = 300 ∧ s2.delayTime = 300 ∧ s1.delayTime ≠ 600 ∧ s2.delayTime ≠ 600 :=
  ⟨by decide, _, _, rfl, rfl, rfl, rfl, by decide, by decide⟩

/-- C4 (amended), witness: "EasyHard" selects 600 ms and "Hard" selects 100 ms, in
`setup` and in `gameOver`; neither text has a NUL byte. -/
theorem difficulty_mapping_witness :
    (∃ s1 s2, setup (demoWorld 0 [['E', 'a', 's', 'y', 'H', 'a', 'r', 'd']]) = .ok s1 ∧
        gameOver (demoWorld 0 [['E', 'a', 's', 'y', 'H', 'a', 'r', 'd']]) = .ok s2 ∧
        s1.delayTime = 600 ∧ s2.delayTime = 600) ∧
      (∃ s1 s2, setup (demoWorld 0 [['H', 'a', 'r', 'd']]) = .ok s1 ∧
        gameOver (demoWorld 0 [['H', 'a', 'r', 'd']]) = .ok s2 ∧
        s1.delayTime = 100 ∧ s2.delayTime = 100) := by
  constructor
  · obtain ⟨s1, s2, h1, h2, hE, _, _, hnul⟩ :=
      difficulty_mapping (demoWorld 0 [['E', 'a', 's', 'y', 'H', 'a', 'r', 'd']])
        ['E', 'a', 's', 'y', 'H', 'a', 'r', 'd'] [] rfl
    rw [hnul (by decide)] at hE
    exact ⟨s1, s2, h1, h2, hE (by decide)⟩
  · obtain ⟨s1, s2, h1, h2, _, _, hH, hnul⟩ :=
      difficulty_mapping (demoWorld 0 [['H', 'a', 'r', 'd']]) ['H', 'a', 'r', 'd'] [] rfl
    rw [hnul (by decide)] at hH
    exact ⟨s1, s2, h1, h2, hH (by decide) (by decide) (by decide)⟩

/-- C5, the code at a failing input: "banana" contains none of the three names and no
NUL byte. Received by `setup` on the boot state it leaves the Medium value 300 ms. In
the session `demoBanana`, "Easy" is selected at start, the first round is lost, "banana"
is received in `gameOver`, and the interval afterwards is 600 ms, not 300 ms. -/
theorem unmatched_text_after_loss_not_medium :
    (¬ ['E', 'a', 's', 'y'] <:+: ['b', 'a', 'n', 'a', 'n', 'a'] ∧
      ¬ ['M', 'e', 'd', 'i', 'u', 'm'] <:+: ['b', 'a', 'n', 'a', 'n', 'a'] ∧
      ¬ ['H', 'a', 'r', 'd'] <:+: ['b', 'a', 'n', 'a', 'n', 'a'] ∧
      ∀ c ∈ ['b', 'a', 'n', 'a', 'n', 'a'], c ≠ Char.ofNat 0) ∧
      (∃ s0, setup (demoWorld 1 [['b', 'a', 'n', 'a', 'n', 'a']]) = .ok s0 ∧
        s0.delayTime = 300) ∧
      ∃ s1 t, setup demoBanana = .ok s1 ∧ s1.delayTime = 600 ∧
        s1.serialBT = [['b', 'a', 'n', 'a', 'n', 'a']] ∧
        loop 1 s1 = .ok t ∧ t.serialBT = [] ∧ t.delayTime = 600 ∧ t.delayTime ≠ 300 :=
  ⟨by decide, ⟨_, rfl, rfl⟩, _, _, rfl, rfl, rfl, rfl, rfl, rfl, by decide⟩

/-- C6, witness: with the symbols 1, 2, 3 drawn and repeated correctly, the length after
two won rounds is 2, after the third it is 3, and the third round leaves the first two
symbols in place. -/
theorem sequence_growth_witness :
    (afterLoop 1 (afterLoop 1 demoGrowth)).gameIndex = 2 ∧
      (afterLoop 1 (afterLoop 1 (afterLoop 1 demoGrowth))).gameIndex = 3 ∧
      (afterLoop 1 (afterLoop 1 (afterLoop 1 demoGrowth))).gameSequence.take 2 = [1, 2] ∧
      (afterLoop 1 (afterLoop 1 (afterLoop 1 demoGrowth))).gameSequence.take 2
        = (afterLoop 1 (afterLoop 1 demoGrowth)).gameSequence.take 2 := by
  have h := sequence_growth demoGrowth (afterLoop 1 (afterLoop 1 demoGrowth)) 2 rfl
    (by decide)
    (WonRounds.succ (WonRounds.succ (WonRounds.zero _) ⟨1, _, rfl, rfl⟩) ⟨1, _, rfl, rfl⟩)
  have h3 := h.2 (afterLoop 1 (afterLoop 1 (afterLoop 1 demoGrowth))) ⟨1, _, rfl, rfl⟩
  exact ⟨h.1, h3.1 (by decide), rfl, h3.2⟩

set_option maxRecDepth 100000 in
/-- C7, witness: in `demoFull` (length 99) the extension keeps the length at 99, and
after one more won round the length is 99 and the symbols 0..98 are unchanged. -/
theorem clamp_at_capacity_witness :
    (∃ s2, extendSequence demoFull = .ok s2 ∧ s2.gameIndex = MAX_GAME_LENGTH - 1 ∧
        s2.gameSequence.take 99 = demoFull.gameSequence.take 99) ∧
      (afterLoop 1 demoFull).gameIndex = MAX_GAME_LENGTH - 1 ∧
      (afterLoop 1 demoFull).gameSequence.take 99 = demoFull.gameSequence.take 99 := by
  have h := clamp_at_capacity demoFull rfl rfl
  exact ⟨h.1, h.2 1 (afterLoop 1 demoFull)
    (WonRounds.succ (WonRounds.zero _) ⟨1, _, rfl, rfl⟩)⟩

set_option maxRecDepth 100000 in
/-- C8, counterexample: in `demoFull` (length 99, Score 255, as after 255 won rounds)
the next round is won and leaves Score 0, not 256. -/
theorem score_wraps_at_255 :
    ∃ t, WonRound demoFull t ∧ demoFull.score = 255 ∧ t.score = 0 ∧
      t.score ≠ demoFull.score + 1 :=
  ⟨_, ⟨1, _, rfl, rfl⟩, rfl, rfl, by decide⟩

/-- C8 (amended), witness: the first won round of `demoGrowth` takes Score from 0 to 1. -/
theorem score_increment_witness :
    (afterLoop 1 demoGrowth).score = (demoGrowth.score + 1) % 256 ∧
      (afterLoop 1 demoGrowth).score = 1 := by
  have h := score_increment demoGrowth (afterLoop 1 demoGrowth) 1
  exact ⟨h.1 ⟨1, _, rfl, rfl⟩,
    (h.2 rfl (WonRounds.succ (WonRounds.zero _) ⟨1, _, rfl, rfl⟩)).2 (by decide)⟩

/-- C9, counterexample: in `demoToggle` (Score 2) `playSequence` observes the flag set
at position 0 and plays nothing, the check of line 297 observes it clear, verification
runs and fails, and the round is lost: Score 2 is transmitted and Score and Sequence are
reset. -/
theorem playback_pause_then_lost :
    ∃ s1 s2 s3 t, pauseCheckpoint 1 demoToggle = .ok s1 ∧ s1.isPaused 0 = true ∧
      extendSequence s1 = .ok s2 ∧ s2.gameIndex = 1 ∧
      playSequence s2 = .ok s3 ∧ s3.trace = [] ∧
      loop 1 demoToggle = .ok t ∧
      t.trace = [.led 0 300, .send 2, .buzz 100, .buzz 100, .buzz 100, .buzz 100] ∧
      t.score = 0 ∧ t.gameIndex = 0 :=
  ⟨_, _, _, _, rfl, rfl, rfl, rfl, rfl, rfl, rfl, rfl, rfl, rfl⟩

/-- C9 (amended), witness: in `demoAbort` (Score 4, two symbols after the extension)
the flag is observed set at position 1 and again at line 297; only symbol 0 is played,
Score stays 4 and the length stays 2. -/
theorem playback_pause_abort_witness :
    ∃ t, loop 1 demoAbort = .ok t ∧ t.score = 4 ∧ t.gameIndex = 2 ∧
      t.trace = [.led 0 300] := by
  obtain ⟨_, h⟩ := playback_pause_abort 1 demoAbort (readIsPaused demoAbort).2 1 rfl rfl
    (by decide) (by decide) (by decide)
    (fun k hk => by
      have hk0 : k = 0 := by omega
      subst hk0
      rfl) rfl
  obtain ⟨t, h1, h2, h3, h4, h5⟩ := h rfl
  refine ⟨t, h1, h2, h3, ?_⟩
  rw [h5, h4]
  rfl

/-- C10, witness: the state after boot, `setup` and one lost round of `demoBanana` is
reachable, well-formed, and safe to continue from. -/
theorem indexing_in_bounds_witness :
    ∃ s, Reachable s ∧
      (s.gameSequence.length = MAX_GAME_LENGTH ∧ s.gameIndex < MAX_GAME_LENGTH ∧
        ∀ x ∈ s.gameSequence, x < 4) ∧
      (∀ fuel, loop fuel s ≠ .error .outOfBounds) ∧
      setup s ≠ .error .outOfBounds := by
  have h1 : Reachable demoBanana := Reachable.boot _ _ _ _
  have h2 : Reachable (afterSetup demoBanana) := Reachable.setup h1 rfl
  have h3 : Reachable (afterLoop 1 (afterSetup demoBanana)) := Reachable.loop 1 h2 rfl
  exact ⟨_, h3, indexing_in_bounds _ h3⟩

end SimonDice
